import Mathlib

/-!
Shallow embedding of the Multiplayer-Snake-Game repository
(`src/snake/config.py`, `src/snake/model.py`, `src/snake/ai_brain.py`,
`src/snake/controller.py`) and proofs about it.

Conventions of the embedding:
* Python floats (`step_timer`, `dt`, particle fields) are modelled as `ℚ`
  with exact arithmetic.
* Python's `random` draws are passed in explicitly as oracle data:
  `random.random()` becomes a `ℚ` argument, `random.choice(xs)` becomes an
  index, and the stream of `random.randint` pairs drawn by `_spawn_food`
  becomes a list of candidate cells (the `while True` loop becomes
  `List.find?`, returning `none` when the modelled draws are exhausted,
  which stands for nontermination).
* `deque` bodies become `List (Int × Int)` with the head of the list as the
  snake head; `appendleft` is `::` and `pop` (rightmost removal) is
  `dropLast`.
* Sets used only for membership (`visited`, `blocked`, `occupied`) become
  lists queried with `∈`.
-/

namespace SnakeGame

/-! ### config.py -/

def GAME_W : Int := 600
def GAME_H : Int := 400
def CELL : Int := 10
def COLS : Int := GAME_W / CELL
def ROWS : Int := GAME_H / CELL
def PANEL_H : Int := 60
def OFFSET_X : Int := 10
def OFFSET_Y : Int := PANEL_H + 10
def GROW_ON_EAT : Nat := 3
def PARTICLE_FOOD_COUNT : Nat := 12
def PARTICLE_DEATH_COUNT : Nat := 20

/-- One game state label (`STATE_MENU` / `STATE_PLAYING` / `STATE_PAUSED` /
`STATE_OVER` strings in `config.py`). -/
inductive GState where
  | menu | playing | paused | over
deriving DecidableEq, Repr

structure DiffCfg where
  label : String
  speed : Nat
  mistake : ℚ
deriving DecidableEq, Repr

/-- The `DIFFICULTIES` dict of `config.py`; `none` models a `KeyError`. -/
def DIFFICULTIES : Nat → Option DiffCfg
  | 1 => some ⟨"EASY", 8, 30/100⟩
  | 2 => some ⟨"NORMAL", 12, 12/100⟩
  | 3 => some ⟨"HARD", 16, 4/100⟩
  | 4 => some ⟨"INSANE", 22, 0⟩
  | _ => none

/-! ### model.py — Direction -/

/-- `Direction` — immutable 2-D unit direction (`model.py`). -/
structure Direction where
  x : Int
  y : Int
deriving DecidableEq, Repr

namespace Direction

def LEFT : Direction := ⟨-1, 0⟩
def RIGHT : Direction := ⟨1, 0⟩
def UP : Direction := ⟨0, -1⟩
def DOWN : Direction := ⟨0, 1⟩

def is_opposite (d other : Direction) : Bool :=
  d.x == -other.x && d.y == -other.y

end Direction

/-- `ALL_DIRS` (same list in `model.py` and `ai_brain.py`). -/
def ALL_DIRS : List Direction :=
  [Direction.RIGHT, Direction.LEFT, Direction.DOWN, Direction.UP]

/-- A grid cell `(x, y)`. -/
abbrev Cell := Int × Int

def inBounds (c : Cell) : Bool :=
  0 ≤ c.1 && c.1 < COLS && 0 ≤ c.2 && c.2 < ROWS

/-! ### model.py — Snake -/

/-- Colors are RGB triples from `config.py`; their values are irrelevant to
the claims, so they are carried opaquely. -/
abbrev Color := Nat × Nat × Nat

def PLAYER_COL : Color := (0, 255, 136)
def PLAYER_DIM : Color := (0, 140, 80)
def AI_COL : Color := (255, 51, 102)
def AI_DIM : Color := (140, 30, 60)
def FOOD_COL : Color := (255, 228, 77)

/-- `Snake` — body, direction, score, alive flag (`model.py`).
`body` is nonempty in every reachable state; `nextDir` is `_next_dir`,
`growPending` is `_grow_pending` (never negative in Python, hence `Nat`). -/
structure Snake where
  body : List Cell
  dir : Direction
  nextDir : Direction
  color : Color
  dimColor : Color
  alive : Bool
  score : Nat
  growPending : Nat
deriving DecidableEq, Repr

namespace Snake

/-- `Snake.__init__`. -/
def init (startX startY : Int) (startDir : Direction)
    (bodyColor dimColor : Color) : Snake :=
  { body := [(startX, startY)]
    dir := startDir
    nextDir := startDir
    color := bodyColor
    dimColor := dimColor
    alive := true
    score := 0
    growPending := 0 }

/-- `Snake.head` — `body[0]`.  Python raises on an empty deque; the default
is never reached because bodies are nonempty in every reachable state. -/
def head (s : Snake) : Cell := s.body.headD (0, 0)

/-- `Snake.request_direction` — queue a direction change, ignored if it
would reverse the snake. -/
def request_direction (s : Snake) (newDir : Direction) : Snake :=
  if ¬ newDir.is_opposite s.dir then { s with nextDir := newDir } else s

/-- `Snake.step` — advance one cell; returns the updated snake and the
Python return value (`true` on success, `false` if the move killed it). -/
def step (s : Snake) : Snake × Bool :=
  let s := { s with dir := s.nextDir }
  let n : Cell := (s.head.1 + s.dir.x, s.head.2 + s.dir.y)
  if ¬ inBounds n then ({ s with alive := false }, false)
  else if n ∈ s.body then ({ s with alive := false }, false)
  else
    let s := { s with body := n :: s.body }
    if s.growPending > 0 then ({ s with growPending := s.growPending - 1 }, true)
    else ({ s with body := s.body.dropLast }, true)

/-- `Snake.eat`. -/
def eat (s : Snake) : Snake :=
  { s with score := s.score + 1, growPending := s.growPending + GROW_ON_EAT }

/-- `Snake.kill`. -/
def kill (s : Snake) : Snake := { s with alive := false }

/-- `Snake.occupies`. -/
def occupies (s : Snake) (c : Cell) : Bool := c ∈ s.body

/-- `Snake.head_at`. -/
def head_at (s : Snake) (c : Cell) : Bool := s.head == c

end Snake

/-! ### ai_brain.py -/

/-- `_legal_dirs` — all directions that don't immediately kill the snake:
not a reversal, in bounds, not on the snake's own body.  The Python loop
with `continue` over `ALL_DIRS` is a filter. -/
def legal_dirs (snake : Snake) : List Direction :=
  ALL_DIRS.filter (fun d =>
    !d.is_opposite snake.dir &&
    inBounds (snake.head.1 + d.x, snake.head.2 + d.y) &&
    !snake.occupies (snake.head.1 + d.x, snake.head.2 + d.y))

/-- `_random_legal` — `random.choice(legal)` is modelled by an oracle index
reduced mod the length; if the legal set is empty, keep the current
direction. -/
def random_legal (snake : Snake) (choiceIx : Nat) : Direction :=
  let legal := legal_dirs snake
  if legal.isEmpty then snake.dir
  else legal.getD (choiceIx % legal.length) snake.dir

/-- Upper bound on BFS loop iterations: each pop consumes a queue entry,
and at most one entry is ever enqueued per cell (enqueues are guarded by
`visited`), so the loop runs at most `COLS * ROWS + 1` times. -/
def bfsFuel : Nat := (COLS * ROWS).toNat + 2

/-- The `while queue:` loop of `_bfs`.  Queue entries are
`(cell, first_dir)` with `first_dir = none` only for the start entry;
`first_dir or d` is `some (firstDir.getD d)`.  Neighbors are expanded in
the `ALL_DIRS` order, appended to the rear of the queue, and marked
visited at enqueue time. -/
def bfsAux (blocked : List Cell) (target : Cell) :
    Nat → List (Cell × Option Direction) → List Cell → Option Direction
  | 0, _, _ => none
  | _ + 1, [], _ => none
  | fuel + 1, (c, firstDir) :: rest, visited =>
    if c = target ∧ firstDir.isSome then firstDir
    else
      let ex := ALL_DIRS.foldl
        (fun (acc : List (Cell × Option Direction) × List Cell) d =>
          let n : Cell := (c.1 + d.x, c.2 + d.y)
          if inBounds n ∧ n ∉ blocked ∧ n ∉ acc.2 then
            (acc.1 ++ [(n, some (firstDir.getD d))], n :: acc.2)
          else acc)
        (rest, visited)
      bfsAux blocked target fuel ex.1 ex.2

/-- `_bfs` — BFS from the snake's head to `target`; the entire body
(head included) is the obstacle set; returns the first direction to take,
or `none` if no path exists. -/
def bfs (snake : Snake) (target : Cell) : Option Direction :=
  bfsAux snake.body target bfsFuel [(snake.head, none)] [snake.head]

/-- Stable insertion of a direction into a list sorted by `key`
(ties keep the existing elements first). -/
def insortByKey (key : Direction → Int) (d : Direction) :
    List Direction → List Direction
  | [] => [d]
  | e :: es => if key d ≤ key e then d :: e :: es else e :: insortByKey key d es

/-- Stable sort by `key`; Python's `list.sort` is stable, so
`_safest_fallback`'s sort is embedded as a stable insertion sort. -/
def sortByKey (key : Direction → Int) : List Direction → List Direction
  | [] => []
  | d :: ds => insortByKey key d (sortByKey key ds)

/-- `_safest_fallback` — when BFS finds no path, pick the legal direction
minimising Manhattan distance to the target (stable sort, take the
first). -/
def safest_fallback (snake : Snake) (target : Cell) : Direction :=
  let legal := legal_dirs snake
  if legal.isEmpty then snake.dir
  else
    (sortByKey (fun d =>
        |snake.head.1 + d.x - target.1| + |snake.head.2 + d.y - target.2|)
      legal).headD snake.dir

/-- `compute_direction` — the AI decision.  `random.random()` is the
oracle value `rand`; with `rand < mistakeChance` make a random legal move,
otherwise follow BFS, falling back to `_safest_fallback` when BFS returns
no path.  `player` is received but unused, as in the source. -/
def compute_direction (ai : Snake) (food : Cell) (player : Snake)
    (mistakeChance : ℚ) (rand : ℚ) (choiceIx : Nat) : Direction :=
  if rand < mistakeChance then random_legal ai choiceIx
  else
    match bfs ai food with
    | some found => found
    | none => safest_fallback ai food

/-! ### model.py — Particle -/

/-- The random draws of `Particle.__init__`: the angle and speed are
abstracted to the resulting velocity components `(vx, vy)`, plus the decay
and size draws. -/
structure PSeed where
  vx : ℚ
  vy : ℚ
  decay : ℚ
  size : Nat
deriving DecidableEq, Repr

/-- `Particle` — visual effect data. -/
structure Particle where
  x : ℚ
  y : ℚ
  vx : ℚ
  vy : ℚ
  life : ℚ
  decay : ℚ
  color : Color
  size : Nat
deriving DecidableEq, Repr

namespace Particle

/-- `Particle.__init__` with its random draws supplied as a `PSeed`. -/
def init (x y : ℚ) (color : Color) (seed : PSeed) : Particle :=
  { x := x, y := y, vx := seed.vx, vy := seed.vy,
    life := 1, decay := seed.decay, color := color, size := seed.size }

/-- `Particle.alive`. -/
def isAlive (p : Particle) : Bool := 0 < p.life

/-- `Particle.update`. -/
def update (p : Particle) : Particle :=
  { p with x := p.x + p.vx, y := p.y + p.vy,
           vx := p.vx * (9/10), vy := p.vy * (9/10),
           life := p.life - p.decay }

end Particle

/-! ### model.py — GameModel -/

/-- All random draws one call into the model may make, passed explicitly. -/
structure Oracle where
  rand : ℚ
  choiceIx : Nat
  foodCandidates : List Cell
  particleSeed : Nat → PSeed

structure GameModel where
  difficulty : Nat
  state : GState
  tick : Nat
  stepTimer : ℚ
  player : Snake
  ai : Snake
  food : Cell
  particles : List Particle
deriving DecidableEq, Repr

namespace GameModel

/-- `GameModel._spawn_food` — draw positions until one is unoccupied by
either snake; the oracle supplies the stream of `random.randint` pairs and
`none` models running out of modelled draws (nontermination). -/
def spawn_food (player ai : Snake) (cands : List Cell) : Option Cell :=
  cands.find? (fun pos => !player.occupies pos && !ai.occupies pos)

/-- `GameModel._reset_entities`. -/
def reset_entities (m : GameModel) (cands : List Cell) : Option GameModel :=
  let player := Snake.init (COLS / 4) (ROWS / 2) Direction.RIGHT PLAYER_COL PLAYER_DIM
  let ai := Snake.init (3 * COLS / 4) (ROWS / 2) Direction.LEFT AI_COL AI_DIM
  (spawn_food player ai cands).map (fun food =>
    { m with player := player, ai := ai, food := food,
             particles := [], stepTimer := 0, tick := 0 })

/-- `GameModel.__init__` — the `None` snakes are placeholders immediately
overwritten by `_reset_entities`. -/
def init (cands : List Cell) : Option GameModel :=
  reset_entities
    { difficulty := 2, state := .menu, tick := 0, stepTimer := 0,
      player := Snake.init 0 0 Direction.RIGHT PLAYER_COL PLAYER_DIM,
      ai := Snake.init 0 0 Direction.LEFT AI_COL AI_DIM,
      food := (0, 0), particles := [] } cands

/-- `GameModel.set_difficulty`. -/
def set_difficulty (m : GameModel) (level : Nat) : GameModel :=
  if (DIFFICULTIES level).isSome then { m with difficulty := level } else m

/-- `GameModel.start`. -/
def start (m : GameModel) (cands : List Cell) : Option GameModel :=
  (m.reset_entities cands).map (fun m => { m with state := .playing })

/-- `GameModel.pause`. -/
def pause (m : GameModel) : GameModel :=
  if m.state = .playing then { m with state := .paused } else m

/-- `GameModel.resume`. -/
def resume (m : GameModel) : GameModel :=
  if m.state = .paused then { m with state := .playing } else m

/-- `GameModel.restart`. -/
def restart (m : GameModel) (cands : List Cell) : Option GameModel :=
  (m.reset_entities cands).map (fun m => { m with state := .playing })

/-- `GameModel._burst` — append `count` fresh particles at `(x, y)`. -/
def burst (m : GameModel) (x y : ℚ) (color : Color) (count : Nat)
    (seed : Nat → PSeed) : GameModel :=
  { m with particles :=
      m.particles ++ (List.range count).map (fun i => Particle.init x y color (seed i)) }

/-- `GameModel._update_particles` — age every particle, then drop dead
ones. -/
def update_particles (m : GameModel) : GameModel :=
  { m with particles := (m.particles.map Particle.update).filter Particle.isAlive }

/-- The cross-collision block of `_game_step`, applied to the two
post-step snakes (only when both are still alive). -/
def cross_collision (player ai : Snake) : Snake × Snake :=
  if player.alive ∧ ai.alive then
    let ph := player.head
    let ah := ai.head
    if ph = ah then (player.kill, ai.kill)
    else if ai.occupies ph ∧ ph ≠ ai.head then (player.kill, ai)
    else if player.occupies ah ∧ ah ≠ player.head then (player, ai.kill)
    else (player, ai)
  else (player, ai)

/-- The food-pickup block of `_game_step`: `for snake in (player, ai)`
with a `break` after the first eater is an if/elif over the two snakes. -/
def food_pickup (m : GameModel) (o : Oracle) : Option GameModel :=
  if m.player.alive ∧ m.player.head_at m.food then
    let fx := ((OFFSET_X + m.food.1 * CELL + CELL / 2 : Int) : ℚ)
    let fy := ((OFFSET_Y + m.food.2 * CELL + CELL / 2 : Int) : ℚ)
    let m := { m with player := m.player.eat }
    let m := m.burst fx fy FOOD_COL PARTICLE_FOOD_COUNT o.particleSeed
    (spawn_food m.player m.ai o.foodCandidates).map (fun f => { m with food := f })
  else if m.ai.alive ∧ m.ai.head_at m.food then
    let fx := ((OFFSET_X + m.food.1 * CELL + CELL / 2 : Int) : ℚ)
    let fy := ((OFFSET_Y + m.food.2 * CELL + CELL / 2 : Int) : ℚ)
    let m := { m with ai := m.ai.eat }
    let m := m.burst fx fy FOOD_COL PARTICLE_FOOD_COUNT o.particleSeed
    (spawn_food m.player m.ai o.foodCandidates).map (fun f => { m with food := f })
  else some m

/-- The game-over block of `_game_step`: if either snake died, burst at
the dead snake's head (player preferred when both died) and move to
`over`. -/
def check_game_over (m : GameModel) (o : Oracle) : GameModel :=
  if ¬ m.player.alive ∨ ¬ m.ai.alive then
    let dead := if ¬ m.player.alive then m.player else m.ai
    let hx := ((OFFSET_X + dead.head.1 * CELL + CELL / 2 : Int) : ℚ)
    let hy := ((OFFSET_Y + dead.head.2 * CELL + CELL / 2 : Int) : ℚ)
    let m := m.burst hx hy dead.color PARTICLE_DEATH_COUNT o.particleSeed
    { m with state := .over }
  else m

/-- `GameModel._game_step` — AI decision on the pre-move snapshot, then
both snakes step (player first), then cross-collision, food pickup and the
game-over check.  `none` models the `KeyError` on an invalid difficulty
(unreachable: the difficulty is always 1..4) or `_spawn_food` running out
of modelled draws. -/
def game_step (m : GameModel) (o : Oracle) : Option GameModel :=
  match DIFFICULTIES m.difficulty with
  | none => none
  | some cfg =>
    let newDir := compute_direction m.ai m.food m.player cfg.mistake o.rand o.choiceIx
    let m := { m with ai := m.ai.request_direction newDir }
    let m := { m with player := (m.player.step).1 }
    let m := { m with ai := (m.ai.step).1 }
    let pa := cross_collision m.player m.ai
    let m := { m with player := pa.1, ai := pa.2 }
    (m.food_pickup o).map (fun m => m.check_game_over o)

/-- `GameModel.update` — advance game logic by `dt` seconds. -/
def update (m : GameModel) (dt : ℚ) (o : Oracle) : Option GameModel :=
  let m := { m with tick := m.tick + 1 }
  if m.state ≠ .playing then some m
  else
    let m := m.update_particles
    match DIFFICULTIES m.difficulty with
    | none => none
    | some cfg =>
      let m := { m with stepTimer := m.stepTimer + dt }
      if m.stepTimer ≥ 1 / (cfg.speed : ℚ) then
        game_step { m with stepTimer := m.stepTimer - 1 / (cfg.speed : ℚ) } o
      else some m

end GameModel

/-! ### controller.py — keyboard dispatch

Only the model-affecting part of the controller is embedded: music calls
and `K_q` (process exit) have no effect on the model. -/

inductive Key where
  | left | right | up | down | p | r | space | enter | d1 | d2 | d3 | d4 | other
deriving DecidableEq, Repr

namespace GameModel

/-- `GameController._handle_difficulty_keys`. -/
def handle_difficulty_keys (m : GameModel) (k : Key) : GameModel :=
  match k with
  | .d1 => m.set_difficulty 1
  | .d2 => m.set_difficulty 2
  | .d3 => m.set_difficulty 3
  | .d4 => m.set_difficulty 4
  | _ => m

/-- `GameController._handle_menu_keys`. -/
def handle_menu_keys (m : GameModel) (k : Key) (cands : List Cell) :
    Option GameModel :=
  (if k = .enter ∨ k = .space then m.start cands else some m).map
    (fun m => m.handle_difficulty_keys k)

/-- `GameController._handle_playing_keys`. -/
def handle_playing_keys (m : GameModel) (k : Key) (cands : List Cell) :
    Option GameModel :=
  match k with
  | .left => some { m with player := m.player.request_direction Direction.LEFT }
  | .right => some { m with player := m.player.request_direction Direction.RIGHT }
  | .up => some { m with player := m.player.request_direction Direction.UP }
  | .down => some { m with player := m.player.request_direction Direction.DOWN }
  | .p => some m.pause
  | .r => m.restart cands
  | _ => some m

/-- `GameController._handle_paused_keys`. -/
def handle_paused_keys (m : GameModel) (k : Key) (cands : List Cell) :
    Option GameModel :=
  if k = .p ∨ k = .space then some m.resume
  else if k = .r then m.restart cands
  else some m

/-- `GameController._handle_over_keys`. -/
def handle_over_keys (m : GameModel) (k : Key) (cands : List Cell) :
    Option GameModel :=
  (if k = .r ∨ k = .space ∨ k = .enter then m.restart cands else some m).map
    (fun m => m.handle_difficulty_keys k)

/-- `GameController._handle_keydown` — per-state dispatch (the `K_q` quit
branch exits the process and is not part of the model). -/
def handle_keydown (m : GameModel) (k : Key) (cands : List Cell) :
    Option GameModel :=
  match m.state with
  | .menu => m.handle_menu_keys k cands
  | .playing => m.handle_playing_keys k cands
  | .paused => m.handle_paused_keys k cands
  | .over => m.handle_over_keys k cands

end GameModel

/-! ## Fixtures and spec-side definitions -/

/-- The head the snake will move to once `step` commits the pending
direction. -/
def Snake.newHead (s : Snake) : Cell :=
  (s.head.1 + s.nextDir.x, s.head.2 + s.nextDir.y)

/-- Modelled from the spec: the catch-up accumulator the spec claims —
`while stepTimer >= 1/stepsPerSecond(currentDifficulty): subtract the
threshold and execute exactly one discrete gameStep()`.  The fuel bounds
the while loop (64 is ample for the inputs considered here). -/
def catchUpLoop (th : ℚ) (o : Oracle) : Nat → GameModel → Option GameModel
  | 0, m => some m
  | fuel + 1, m =>
    if m.stepTimer ≥ th then
      (GameModel.game_step { m with stepTimer := m.stepTimer - th } o).bind
        (catchUpLoop th o fuel)
    else some m

/-- Modelled from the spec: `advance(dt)` as the spec words it, identical
to `GameModel.update` except that the single `if` on the step accumulator
is the claimed catch-up `while`. -/
def updateSpec (m : GameModel) (dt : ℚ) (o : Oracle) : Option GameModel :=
  let m := { m with tick := m.tick + 1 }
  if m.state ≠ GState.playing then some m
  else
    let m := m.update_particles
    match DIFFICULTIES m.difficulty with
    | none => none
    | some cfg =>
      let m := { m with stepTimer := m.stepTimer + dt }
      catchUpLoop (1 / (cfg.speed : ℚ)) o 64 m

/-- A one-cell snake used to instantiate hypotheses of general theorems
(concrete player start position of `_reset_entities`). -/
def demoSnake : Snake := Snake.init 15 20 Direction.RIGHT PLAYER_COL PLAYER_DIM

/-- A snake whose next step leaves the grid (heading `LEFT` at `(0, 0)`). -/
def doomedSnake : Snake := Snake.init 0 0 Direction.LEFT PLAYER_COL PLAYER_DIM

/-- A model sitting in the menu state, used to instantiate hypotheses of
theorems about the state machine. -/
def menuModel : GameModel :=
  { difficulty := 2, state := GState.menu, tick := 0, stepTimer := 0,
    player := demoSnake,
    ai := Snake.init 45 20 Direction.LEFT AI_COL AI_DIM,
    food := (0, 0), particles := [] }

/-- A fixed particle seed for oracles (the random draws of
`Particle.__init__` abstracted to concrete values). -/
def defaultSeed : PSeed := { vx := 1, vy := 1, decay := 1, size := 2 }

/-- A concrete oracle: no AI mistake (`rand = 0` only fires when the
mistake probability is positive), one food candidate. -/
def oracleA : Oracle :=
  { rand := 0, choiceIx := 0, foodCandidates := [], particleSeed := fun _ => defaultSeed }

/-- A concrete particle with exactly one tick of life left. -/
def particleA : Particle :=
  { x := 0, y := 0, vx := 1, vy := 1, life := 1, decay := 1, color := FOOD_COL, size := 2 }

/-- A paused model holding a live particle. -/
def pausedModel : GameModel :=
  { difficulty := 2, state := GState.paused, tick := 5, stepTimer := 0,
    player := demoSnake,
    ai := Snake.init 45 20 Direction.LEFT AI_COL AI_DIM,
    food := (0, 0), particles := [particleA] }

/-- A playing model on the INSANE difficulty (no AI mistakes), food a few
cells from the AI. -/
def playModel : GameModel :=
  { difficulty := 4, state := GState.playing, tick := 0, stepTimer := 0,
    player := demoSnake,
    ai := Snake.init 45 20 Direction.LEFT AI_COL AI_DIM,
    food := (43, 19), particles := [] }

/-- `playModel` after one game step (both snakes advanced one cell). -/
def midModel : GameModel :=
  { difficulty := 4, state := GState.playing, tick := 1, stepTimer := 0,
    player := { body := [(16, 20)], dir := Direction.RIGHT, nextDir := Direction.RIGHT,
                color := PLAYER_COL, dimColor := PLAYER_DIM, alive := true, score := 0,
                growPending := 0 },
    ai := { body := [(44, 20)], dir := Direction.LEFT, nextDir := Direction.LEFT,
            color := AI_COL, dimColor := AI_DIM, alive := true, score := 0,
            growPending := 0 },
    food := (43, 19), particles := [] }

/-- `midModel` after one more game step. -/
def finModel : GameModel :=
  { midModel with
    player := { midModel.player with body := [(17, 20)] },
    ai := { midModel.ai with body := [(43, 20)] } }

/-- The step accumulator after `advance(1/11)` fires once on INSANE speed. -/
def timerA : ℚ := playModel.stepTimer + 1/11 - 1/((22:Nat):ℚ)

/-- The step accumulator after a second (catch-up) firing. -/
def timerB : ℚ := timerA - 1/((22:Nat):ℚ)

/-- Follow a list of directions from `c`, requiring every visited cell to
be in bounds and unblocked; returns the final cell, or `none` if a step is
illegal. -/
def pathEnd (blocked : List Cell) : Cell → List Direction → Option Cell
  | c, [] => some c
  | c, d :: ds =>
    let n : Cell := (c.1 + d.x, c.2 + d.y)
    if d ∈ ALL_DIRS ∧ inBounds n = true ∧ n ∉ blocked then pathEnd blocked n ds
    else none

/-- `c` is reachable from `start` by a legal path of length `k`. -/
def reaches (blocked : List Cell) (start c : Cell) (k : Nat) : Prop :=
  ∃ ds, pathEnd blocked start ds = some c ∧ ds.length = k

/-- What a queue entry promises: either the untouched start entry, or a
recorded first direction that begins a legal path of the recorded length
from the start to the entry's cell. -/
def entryOK (blocked : List Cell) (start : Cell)
    (e : Cell × Option Direction) (k : Nat) : Prop :=
  (e.2 = none ∧ e.1 = start ∧ k = 0) ∨
    (∃ d ds, e.2 = some d ∧ pathEnd blocked start (d :: ds) = some e.1 ∧
      ds.length + 1 = k)

/-- The in-bounds cells as a finset (for the termination measure). -/
def gridF : Finset Cell := Finset.Icc ((0:Int), (0:Int)) ((59:Int), (39:Int))

/-- The neighbor-expansion step folded over `ALL_DIRS` in `bfsAux`
(named form of the inline lambda, definitionally equal to it). -/
def bfsStep (blocked : List Cell) (c : Cell) (firstDir : Option Direction)
    (acc : List (Cell × Option Direction) × List Cell) (d : Direction) :
    List (Cell × Option Direction) × List Cell :=
  let n : Cell := (c.1 + d.x, c.2 + d.y)
  if inBounds n ∧ n ∉ blocked ∧ n ∉ acc.2 then
    (acc.1 ++ [(n, some (firstDir.getD d))], n :: acc.2)
  else acc

/-- The BFS loop invariant.  The queue is `qA ++ qB` where all `qA`
entries are at level `n` and all `qB` entries at level `n + 1`:
every entry records a path of exactly its level from the start (`entA`,
`entB`) and no shorter path to its cell exists (`tightA`, `tightB`);
every cell within distance `n` is already visited (`complete`); every
visited cell is pending in the queue or fully expanded (`closure`); the
target can only be visited if still pending or equal to the start
(`target_pending`). -/
structure BfsInv (blocked : List Cell) (start t : Cell)
    (qA qB : List (Cell × Option Direction)) (visited : List Cell) (n : Nat) : Prop where
  start_vis : start ∈ visited
  entA : ∀ e ∈ qA, entryOK blocked start e n
  entB : ∀ e ∈ qB, entryOK blocked start e (n + 1)
  tightA : ∀ e ∈ qA, ∀ k, reaches blocked start e.1 k → n ≤ k
  tightB : ∀ e ∈ qB, ∀ k, reaches blocked start e.1 k → n + 1 ≤ k
  complete : ∀ c k, reaches blocked start c k → k ≤ n → c ∈ visited
  closure : ∀ c ∈ visited,
    (∃ fd, (c, fd) ∈ qA ∨ (c, fd) ∈ qB) ∨
    (∀ d ∈ ALL_DIRS, inBounds (c.1 + d.x, c.2 + d.y) = true →
      (c.1 + d.x, c.2 + d.y) ∉ blocked → (c.1 + d.x, c.2 + d.y) ∈ visited)
  target_pending : t ∈ visited →
    (∃ fd, (t, fd) ∈ qA ∨ (t, fd) ∈ qB) ∨ t = start
  queue_vis : ∀ e : Cell × Option Direction, e ∈ qA ∨ e ∈ qB → e.1 ∈ visited

/-! ## Theorems -/

/-- Unfolded form of `Snake.step`. -/
theorem Snake.step_def (s : Snake) :
    s.step =
      if ¬ inBounds s.newHead then
        ({ s with dir := s.nextDir, alive := false }, false)
      else if s.newHead ∈ s.body then
        ({ s with dir := s.nextDir, alive := false }, false)
      else if 0 < s.growPending then
        ({ s with dir := s.nextDir, body := s.newHead :: s.body,
                  growPending := s.growPending - 1 }, true)
      else
        ({ s with dir := s.nextDir,
                  body := (s.newHead :: s.body).dropLast }, true) := rfl

/-- C3: `step()` commits the pending heading, then fails (returns `false`,
sets `alive := false`) iff the new head is out of grid bounds or lies on
the pre-move body (the tail cell about to be dropped is not excluded); on
success it prepends the new head and either consumes a growth credit and
keeps the tail (length +1) or drops the tail (length unchanged), and the
body is never empty. -/
theorem snake_step_correct (s : Snake) (hne : s.body ≠ []) :
    (s.step).1.dir = s.nextDir ∧
    ((s.step).2 = false ↔ inBounds s.newHead = false ∨ s.newHead ∈ s.body) ∧
    ((s.step).2 = false → (s.step).1.alive = false ∧ (s.step).1.body = s.body) ∧
    ((s.step).2 = true → 0 < s.growPending →
      (s.step).1.body = s.newHead :: s.body ∧
      (s.step).1.growPending = s.growPending - 1 ∧
      (s.step).1.body.length = s.body.length + 1) ∧
    ((s.step).2 = true → s.growPending = 0 →
      (s.step).1.body = (s.newHead :: s.body).dropLast ∧
      (s.step).1.growPending = s.growPending ∧
      (s.step).1.body.length = s.body.length) ∧
    (s.step).1.body ≠ [] := by
  have hlen : 0 < s.body.length := List.length_pos.mpr hne
  have hdl : ((s.newHead :: s.body).dropLast).length = s.body.length := by
    simp
  have hdl' : (s.newHead :: s.body).dropLast ≠ [] := by
    intro h
    rw [h] at hdl
    simp at hdl
    omega
  rw [Snake.step_def]
  split_ifs with h1 h2 h3 <;> simp_all <;> omega

/-- Witness for `snake_step_correct` at a concrete snake. -/
theorem snake_step_correct_witness :
    demoSnake.body ≠ [] ∧ (demoSnake.step).1.dir = demoSnake.nextDir :=
  ⟨by decide, (snake_step_correct demoSnake (by decide)).1⟩

/-- C10: when `step()` returns `false`, the body, score and growth credits
are exactly as before the call, but the committed heading has been updated
to the pending direction. -/
theorem snake_step_failure_preserves (s : Snake) (h : (s.step).2 = false) :
    (s.step).1.body = s.body ∧ (s.step).1.score = s.score ∧
    (s.step).1.growPending = s.growPending ∧ (s.step).1.dir = s.nextDir := by
  rw [Snake.step_def] at h ⊢
  split_ifs at h ⊢ <;> simp_all

/-- Witness for `snake_step_failure_preserves` at a snake stepping out of
bounds. -/
theorem snake_step_failure_preserves_witness :
    (doomedSnake.step).2 = false ∧ (doomedSnake.step).1.body = doomedSnake.body :=
  ⟨by decide, (snake_step_failure_preserves doomedSnake (by decide)).1⟩

/-- C6: the mistake branch returns a member of the legal set, whose
members are never the reverse of the current heading, always land in
bounds and never land on the AI's own body; when the legal set is empty
the current heading is returned unchanged. -/
theorem ai_random_legal_correct (s : Snake) (ix : Nat) :
    (∀ d ∈ legal_dirs s,
        d.is_opposite s.dir = false ∧
        inBounds (s.head.1 + d.x, s.head.2 + d.y) = true ∧
        s.occupies (s.head.1 + d.x, s.head.2 + d.y) = false) ∧
    (legal_dirs s ≠ [] → random_legal s ix ∈ legal_dirs s ∧
        (random_legal s ix).is_opposite s.dir = false) ∧
    (legal_dirs s = [] → random_legal s ix = s.dir) := by
  have hmem : ∀ d ∈ legal_dirs s,
      d.is_opposite s.dir = false ∧
      inBounds (s.head.1 + d.x, s.head.2 + d.y) = true ∧
      s.occupies (s.head.1 + d.x, s.head.2 + d.y) = false := by
    intro d hd
    simp only [legal_dirs, List.mem_filter, Bool.and_eq_true, Bool.not_eq_true'] at hd
    exact ⟨hd.2.1.1, hd.2.1.2, hd.2.2⟩
  refine ⟨hmem, ?_, ?_⟩
  · intro h
    have hpos : 0 < (legal_dirs s).length := List.length_pos.mpr h
    have hlt : ix % (legal_dirs s).length < (legal_dirs s).length := Nat.mod_lt _ hpos
    have hr : random_legal s ix = (legal_dirs s)[ix % (legal_dirs s).length] := by
      simp [random_legal, List.isEmpty_iff, h, List.getD_eq_getElem?_getD,
        List.getElem?_eq_getElem hlt]
    have hmem2 : random_legal s ix ∈ legal_dirs s := by
      rw [hr]; exact List.getElem_mem hlt
    exact ⟨hmem2, (hmem _ hmem2).1⟩
  · intro h
    simp [random_legal, h]

/-- Witness for `ai_random_legal_correct` at a concrete snake with a
nonempty legal set. -/
theorem ai_random_legal_correct_witness :
    legal_dirs demoSnake ≠ [] ∧ random_legal demoSnake 0 ∈ legal_dirs demoSnake :=
  ⟨by decide, ((ai_random_legal_correct demoSnake 0).2.1 (by decide)).1⟩

theorem insortByKey_ne_nil (key : Direction → Int) (d : Direction)
    (l : List Direction) : insortByKey key d l ≠ [] := by
  cases l with
  | nil => simp [insortByKey]
  | cons e es =>
    simp only [insortByKey]
    split_ifs <;> simp

theorem sortByKey_ne_nil (key : Direction → Int) (l : List Direction)
    (h : l ≠ []) : sortByKey key l ≠ [] := by
  cases l with
  | nil => exact absurd rfl h
  | cons d ds => exact insortByKey_ne_nil key d (sortByKey key ds)

/-- Head of a stable insertion sort: the first minimum of the list. -/
theorem sortByKey_head_firstmin (key : Direction → Int) (dflt : Direction) :
    ∀ l : List Direction, l ≠ [] →
      (sortByKey key l).headD dflt ∈ l ∧
      (∀ e ∈ l, key ((sortByKey key l).headD dflt) ≤ key e) ∧
      (∀ e ∈ l, key e = key ((sortByKey key l).headD dflt) →
        l.indexOf ((sortByKey key l).headD dflt) ≤ l.indexOf e) := by
  intro l
  induction l with
  | nil => intro h; exact absurd rfl h
  | cons a l' ih =>
    intro _
    by_cases hl' : l' = []
    · subst hl'
      simp [sortByKey, insortByKey]
    · obtain ⟨r', t, hst⟩ := List.exists_cons_of_ne_nil (sortByKey_ne_nil key l' hl')
      obtain ⟨ihmem, ihmin, ihfirst⟩ := ih hl'
      rw [hst] at ihmem ihmin ihfirst
      simp only [List.headD_cons] at ihmem ihmin ihfirst
      have hsort : sortByKey key (a :: l') = insortByKey key a (r' :: t) := by
        simp [sortByKey, hst]
      by_cases hle : key a ≤ key r'
      · have : sortByKey key (a :: l') = a :: r' :: t := by
          rw [hsort]; simp [insortByKey, hle]
        rw [this]
        simp only [List.headD_cons]
        refine ⟨List.mem_cons_self a l', ?_, ?_⟩
        · intro e he
          rcases List.mem_cons.mp he with rfl | he'
          · exact le_refl _
          · exact le_trans hle (ihmin e he')
        · intro e he _
          simp [List.indexOf_cons_self]
      · have hlt : key r' < key a := lt_of_not_le hle
        have : sortByKey key (a :: l') = r' :: insortByKey key a t := by
          rw [hsort]; simp [insortByKey, hle]
        rw [this]
        simp only [List.headD_cons]
        have hra : r' ≠ a := by
          intro h; rw [h] at hlt; exact lt_irrefl _ hlt
        refine ⟨List.mem_cons_of_mem a ihmem, ?_, ?_⟩
        · intro e he
          rcases List.mem_cons.mp he with rfl | he'
          · exact le_of_lt hlt
          · exact ihmin e he'
        · intro e he hkey
          have hea : e ≠ a := by
            intro h; rw [h] at hkey; rw [hkey] at hlt; exact lt_irrefl _ hlt
          rcases List.mem_cons.mp he with rfl | he'
          · exact absurd rfl hea
          · rw [List.indexOf_cons_ne _ (by simpa using hra.symm),
                List.indexOf_cons_ne _ (by simpa using hea.symm)]
            exact Nat.succ_le_succ (ihfirst e he' hkey)

/-- C5: when BFS finds no path, the fallback returns the legal direction
minimising the Manhattan distance from the resulting head position to the
food, ties broken by position in the enumeration order (stable sort), and
the current heading when the legal set is empty. -/
theorem ai_fallback_correct (s : Snake) (t : Cell) :
    (legal_dirs s = [] → safest_fallback s t = s.dir) ∧
    (legal_dirs s ≠ [] →
      safest_fallback s t ∈ legal_dirs s ∧
      (∀ d ∈ legal_dirs s,
        |s.head.1 + (safest_fallback s t).x - t.1| +
            |s.head.2 + (safest_fallback s t).y - t.2| ≤
          |s.head.1 + d.x - t.1| + |s.head.2 + d.y - t.2|) ∧
      (∀ d ∈ legal_dirs s,
        |s.head.1 + d.x - t.1| + |s.head.2 + d.y - t.2| =
          |s.head.1 + (safest_fallback s t).x - t.1| +
            |s.head.2 + (safest_fallback s t).y - t.2| →
        (legal_dirs s).indexOf (safest_fallback s t) ≤ (legal_dirs s).indexOf d)) := by
  constructor
  · intro h; simp [safest_fallback, h]
  · intro h
    have hfb : safest_fallback s t =
        (sortByKey (fun d => |s.head.1 + d.x - t.1| + |s.head.2 + d.y - t.2|)
          (legal_dirs s)).headD s.dir := by
      simp [safest_fallback, List.isEmpty_iff, h]
    obtain ⟨h1, h2, h3⟩ := sortByKey_head_firstmin
      (fun d => |s.head.1 + d.x - t.1| + |s.head.2 + d.y - t.2|) s.dir
      (legal_dirs s) h
    rw [hfb]
    exact ⟨h1, h2, h3⟩

/-- Witness for `ai_fallback_correct` at a concrete snake and target. -/
theorem ai_fallback_correct_witness :
    legal_dirs demoSnake ≠ [] ∧
      safest_fallback demoSnake (0, 0) ∈ legal_dirs demoSnake :=
  ⟨by decide, ((ai_fallback_correct demoSnake (0, 0)).2 (by decide)).1⟩

/-- C7: food spawned by `_spawn_food` never lies on either snake's body at
spawn time (both on pickup respawns and at round start); pickup is checked
player first, only for a living snake whose head is on the food, and at
most one snake eats per tick — when the player eats, the AI snake is left
completely untouched, and when neither condition holds the model is
unchanged. -/
theorem food_spawn_and_pickup :
    (∀ (p a : Snake) (cands : List Cell) (c : Cell),
      GameModel.spawn_food p a cands = some c →
        p.occupies c = false ∧ a.occupies c = false) ∧
    (∀ (m : GameModel) (o : Oracle) (m' : GameModel),
      m.player.alive = true → m.player.head_at m.food = true →
      m.food_pickup o = some m' →
        m'.player.score = m.player.score + 1 ∧
        m'.player.growPending = m.player.growPending + GROW_ON_EAT ∧
        m'.ai = m.ai ∧
        m'.player.occupies m'.food = false ∧ m'.ai.occupies m'.food = false) ∧
    (∀ (m : GameModel) (o : Oracle) (m' : GameModel),
      ¬(m.player.alive = true ∧ m.player.head_at m.food = true) →
      m.ai.alive = true → m.ai.head_at m.food = true →
      m.food_pickup o = some m' →
        m'.ai.score = m.ai.score + 1 ∧
        m'.ai.growPending = m.ai.growPending + GROW_ON_EAT ∧
        m'.player = m.player ∧
        m'.player.occupies m'.food = false ∧ m'.ai.occupies m'.food = false) ∧
    (∀ (m : GameModel) (o : Oracle),
      ¬(m.player.alive = true ∧ m.player.head_at m.food = true) →
      ¬(m.ai.alive = true ∧ m.ai.head_at m.food = true) →
      m.food_pickup o = some m) ∧
    (∀ (m : GameModel) (cands : List Cell) (m' : GameModel),
      m.reset_entities cands = some m' →
        m'.player.occupies m'.food = false ∧ m'.ai.occupies m'.food = false) := by
  have hspawn : ∀ (p a : Snake) (cands : List Cell) (c : Cell),
      GameModel.spawn_food p a cands = some c →
        p.occupies c = false ∧ a.occupies c = false := by
    intro p a cands c h
    have := List.find?_some h
    simp only [Bool.and_eq_true, Bool.not_eq_true'] at this
    exact this
  refine ⟨hspawn, ?_, ?_, ?_, ?_⟩
  · intro m o m' hal hat h
    unfold GameModel.food_pickup at h
    rw [if_pos ⟨hal, hat⟩] at h
    rcases Option.map_eq_some'.mp h with ⟨f, hf, rfl⟩
    obtain ⟨hf1, hf2⟩ := hspawn _ _ _ _ hf
    exact ⟨rfl, rfl, rfl, hf1, hf2⟩
  · intro m o m' hnp hal hat h
    unfold GameModel.food_pickup at h
    rw [if_neg hnp, if_pos ⟨hal, hat⟩] at h
    rcases Option.map_eq_some'.mp h with ⟨f, hf, rfl⟩
    obtain ⟨hf1, hf2⟩ := hspawn _ _ _ _ hf
    exact ⟨rfl, rfl, rfl, hf1, hf2⟩
  · intro m o hnp hna
    unfold GameModel.food_pickup
    rw [if_neg hnp, if_neg hna]
  · intro m cands m' h
    unfold GameModel.reset_entities at h
    rcases Option.map_eq_some'.mp h with ⟨f, hf, rfl⟩
    obtain ⟨hf1, hf2⟩ := hspawn _ _ _ _ hf
    exact ⟨hf1, hf2⟩

/-- Witness for `food_spawn_and_pickup` on a concrete spawn. -/
theorem food_spawn_and_pickup_witness :
    GameModel.spawn_food demoSnake demoSnake [(0, 0)] = some (0, 0) ∧
      demoSnake.occupies (0, 0) = false :=
  ⟨by decide, (food_spawn_and_pickup.1 demoSnake demoSnake [(0, 0)] (0, 0) (by decide)).1⟩

/-- C8: commands invalid for the current round state leave it unchanged —
`pause` transitions only Playing to Paused, `resume` only Paused to
Playing, and a restart command issued in the Menu state (the R key, which
the controller only wires up in Playing, Paused and Over) leaves the model
unchanged. -/
theorem invalid_commands_noop :
    (∀ m : GameModel, m.state ≠ GState.playing → m.pause = m) ∧
    (∀ m : GameModel, m.state = GState.playing → (m.pause).state = GState.paused) ∧
    (∀ m : GameModel, m.state ≠ GState.paused → m.resume = m) ∧
    (∀ m : GameModel, m.state = GState.paused → (m.resume).state = GState.playing) ∧
    (∀ (m : GameModel) (cands : List Cell), m.state = GState.menu →
      m.handle_keydown Key.r cands = some m) := by
  refine ⟨?_, ?_, ?_, ?_, ?_⟩
  · intro m h; simp [GameModel.pause, h]
  · intro m h; simp [GameModel.pause, h]
  · intro m h; simp [GameModel.resume, h]
  · intro m h; simp [GameModel.resume, h]
  · intro m cands h
    simp [GameModel.handle_keydown, h, GameModel.handle_menu_keys,
      GameModel.handle_difficulty_keys]

/-- Witness for `invalid_commands_noop`: R in the menu does nothing. -/
theorem invalid_commands_noop_witness :
    menuModel.state = GState.menu ∧ menuModel.handle_keydown Key.r [] = some menuModel :=
  ⟨rfl, invalid_commands_noop.2.2.2.2 menuModel [] rfl⟩

/-- C9 amended: when the round state is not Playing, `update` increments
the frame tick and returns immediately — neither particle aging nor any
grid logic runs (the spec claims particle aging still runs; the code
returns before `_update_particles()`). -/
theorem update_non_playing (m : GameModel) (dt : ℚ) (o : Oracle)
    (h : m.state ≠ GState.playing) :
    m.update dt o = some { m with tick := m.tick + 1 } := by
  unfold GameModel.update
  simp [h]

/-- Witness for `update_non_playing` on a paused model. -/
theorem update_non_playing_witness :
    pausedModel.state ≠ GState.playing ∧
      pausedModel.update 1 oracleA = some { pausedModel with tick := pausedModel.tick + 1 } :=
  ⟨by decide, update_non_playing pausedModel 1 oracleA (by decide)⟩

/-- Counterexample to C9 as stated: on a paused model holding one live
particle, `update` leaves the particle list unchanged, although aging the
particle would have changed it. -/
theorem update_non_playing_counterexample :
    (pausedModel.update 1 oracleA).map (fun m => m.particles) = some [particleA] ∧
      Particle.update particleA ≠ particleA := by
  constructor
  · decide
  · intro h
    have hl := congrArg Particle.life h
    simp [Particle.update, particleA] at hl

/-- Field-wise form of `check_game_over`: it never reads or writes the
step accumulator. -/
theorem check_game_over_set_stepTimer (d : Nat) (st : GState) (tk : Nat)
    (q0 q : ℚ) (pl ai : Snake) (fd : Cell) (pt : List Particle) (o : Oracle) :
    GameModel.check_game_over ⟨d, st, tk, q, pl, ai, fd, pt⟩ o =
      { GameModel.check_game_over ⟨d, st, tk, q0, pl, ai, fd, pt⟩ o with stepTimer := q } := by
  unfold GameModel.check_game_over GameModel.burst
  dsimp only
  split_ifs <;> rfl

theorem option_map_ext {α β : Type} (f g : α → β) (x : Option α)
    (h : ∀ a, f a = g a) : x.map f = x.map g := by
  cases x <;> simp [h]

/-- `_game_step` never reads the step accumulator: overriding `stepTimer`
commutes with it. -/
theorem game_step_set_stepTimer (m : GameModel) (q : ℚ) (o : Oracle) :
    GameModel.game_step { m with stepTimer := q } o =
      (GameModel.game_step m o).map (fun r => { r with stepTimer := q }) := by
  obtain ⟨d, st, tk, q0, pl, ai, fd, pt⟩ := m
  unfold GameModel.game_step
  dsimp only
  cases hc : DIFFICULTIES d with
  | none => rfl
  | some cfg =>
    dsimp only
    unfold GameModel.food_pickup GameModel.burst
    dsimp only
    split_ifs with h1 h2
    · simp only [Option.map_map]
      refine option_map_ext _ _ _ (fun a => ?_)
      simp only [Function.comp_apply]
      exact check_game_over_set_stepTimer _ _ _ _ _ _ _ _ _ o
    · simp only [Option.map_map]
      refine option_map_ext _ _ _ (fun a => ?_)
      simp only [Function.comp_apply]
      exact check_game_over_set_stepTimer _ _ _ _ _ _ _ _ _ o
    · simp only [Option.map_some', Function.comp_apply]
      exact congrArg some (check_game_over_set_stepTimer _ _ _ _ _ _ _ _ _ o)

theorem catchUpLoop_fire (th : ℚ) (o : Oracle) (f : Nat) (m : GameModel)
    (h : m.stepTimer ≥ th) :
    catchUpLoop th o (f + 1) m =
      (GameModel.game_step { m with stepTimer := m.stepTimer - th } o).bind
        (catchUpLoop th o f) := by
  rw [catchUpLoop, if_pos h]

theorem catchUpLoop_done (th : ℚ) (o : Oracle) (f : Nat) (m : GameModel)
    (h : ¬ m.stepTimer ≥ th) :
    catchUpLoop th o (f + 1) m = some m := by
  rw [catchUpLoop, if_neg h]

/-- Two catch-up firings in one frame, then rest. -/
theorem catchUpLoop_two_fires (th : ℚ) (o : Oracle) (f : Nat) (m m1 m2 : GameModel)
    (h1 : m.stepTimer ≥ th)
    (hg1 : GameModel.game_step { m with stepTimer := m.stepTimer - th } o = some m1)
    (h2 : m1.stepTimer ≥ th)
    (hg2 : GameModel.game_step { m1 with stepTimer := m1.stepTimer - th } o = some m2)
    (h3 : ¬ m2.stepTimer ≥ th) :
    catchUpLoop th o (f + 3) m = some m2 := by
  rw [show f + 3 = (f + 2) + 1 from rfl, catchUpLoop_fire _ _ (f + 2) _ h1, hg1,
    Option.some_bind', show f + 2 = (f + 1) + 1 from rfl,
    catchUpLoop_fire _ _ (f + 1) _ h2, hg2, Option.some_bind',
    catchUpLoop_done _ _ f _ h3]

theorem game_step_play_concrete1 :
    GameModel.game_step { playModel with tick := playModel.tick + 1 } oracleA =
      some midModel := by decide

theorem game_step_play_concrete2 :
    GameModel.game_step midModel oracleA = some finModel := by decide

/-- Characterisation of `update` in the Playing state: at most one
`gameStep` per frame, firing exactly when the accumulator reaches the
threshold, which is subtracted once. -/
theorem update_one_step_aux (m : GameModel) (dt : ℚ) (o : Oracle) (cfg : DiffCfg)
    (hs : m.state = GState.playing)
    (hcfg : DIFFICULTIES m.difficulty = some cfg) :
    (1 / (cfg.speed : ℚ) ≤ m.stepTimer + dt →
      m.update dt o =
        GameModel.game_step
          { m with tick := m.tick + 1,
                   stepTimer := m.stepTimer + dt - 1 / (cfg.speed : ℚ),
                   particles := (m.particles.map Particle.update).filter Particle.isAlive } o) ∧
    (m.stepTimer + dt < 1 / (cfg.speed : ℚ) →
      m.update dt o =
        some { m with tick := m.tick + 1,
                      stepTimer := m.stepTimer + dt,
                      particles := (m.particles.map Particle.update).filter Particle.isAlive }) := by
  unfold GameModel.update GameModel.update_particles
  simp only [hs]
  rw [if_neg (by simp)]
  rw [hcfg]
  dsimp only
  constructor
  · intro hth
    rw [if_pos (show m.stepTimer + dt ≥ 1 / (cfg.speed : ℚ) from hth)]
  · intro hth
    rw [if_neg (not_le.mpr hth)]

/-- C1 amended: while Playing, each `advance(dt)` call with
`stepTimer + dt` at or above the threshold executes exactly one discrete
`gameStep()` and subtracts the threshold once — even when `dt` spans
several thresholds, no further steps fire in that frame (the spec claims
catch-up with multiple steps; the code uses `if`, not `while`). -/
theorem update_single_step (m : GameModel) (dt : ℚ) (o : Oracle) (cfg : DiffCfg)
    (hs : m.state = GState.playing)
    (hcfg : DIFFICULTIES m.difficulty = some cfg)
    (hth : 1 / (cfg.speed : ℚ) ≤ m.stepTimer + dt) :
    m.update dt o =
      GameModel.game_step
        { m with tick := m.tick + 1,
                 stepTimer := m.stepTimer + dt - 1 / (cfg.speed : ℚ),
                 particles := (m.particles.map Particle.update).filter Particle.isAlive } o :=
  (update_one_step_aux m dt o cfg hs hcfg).1 hth

/-- Witness for `update_single_step`: one frame worth two thresholds still
moves the player by one cell only. -/
theorem update_single_step_witness :
    playModel.state = GState.playing ∧
      (GameModel.update playModel (1/11) oracleA).map (fun m => m.player.head) =
        some (16, 20) := by
  refine ⟨rfl, ?_⟩
  have h1 := update_single_step playModel (1/11) oracleA ⟨"INSANE", 22, 0⟩ rfl rfl
    (by show (1:ℚ)/((22:Nat):ℚ) ≤ (0:ℚ) + 1/11; push_cast; norm_num)
  have h2 : GameModel.game_step { playModel with tick := playModel.tick + 1, stepTimer := timerA } oracleA = some { midModel with stepTimer := timerA } :=
    (game_step_set_stepTimer { playModel with tick := playModel.tick + 1 } timerA oracleA).trans
      (by rw [game_step_play_concrete1]; rfl)
  exact (congrArg (Option.map (fun m => m.player.head)) (h1.trans h2)).trans rfl

/-- Counterexample to C1 as stated: with `dt = 1/11` (two INSANE-speed
thresholds), the code's `update` moves the player one cell, while the
spec's catch-up accumulator (`updateSpec`) moves it two. -/
theorem update_no_catchup_counterexample :
    (GameModel.update playModel (1/11) oracleA).map (fun m => m.player.head) = some (16, 20) ∧
    (updateSpec playModel (1/11) oracleA).map (fun m => m.player.head) = some (17, 20) ∧
    2 * ((1:ℚ)/((22:Nat):ℚ)) ≤ playModel.stepTimer + 1/11 := by
  refine ⟨?_, ?_, ?_⟩
  · have h1 := (update_one_step_aux playModel (1/11) oracleA ⟨"INSANE", 22, 0⟩ rfl rfl).1
      (by show (1:ℚ)/((22:Nat):ℚ) ≤ (0:ℚ) + 1/11; push_cast; norm_num)
    have h2 : GameModel.game_step { playModel with tick := playModel.tick + 1, stepTimer := timerA } oracleA = some { midModel with stepTimer := timerA } :=
      (game_step_set_stepTimer { playModel with tick := playModel.tick + 1 } timerA oracleA).trans
        (by rw [game_step_play_concrete1]; rfl)
    exact (congrArg (Option.map (fun m => m.player.head)) (h1.trans h2)).trans rfl
  · have e0 : updateSpec playModel (1/11) oracleA =
        catchUpLoop (1/((22:Nat):ℚ)) oracleA 64 { playModel with tick := playModel.tick + 1, stepTimer := playModel.stepTimer + 1/11 } := rfl
    have hg1 : GameModel.game_step { playModel with tick := playModel.tick + 1, stepTimer := timerA } oracleA = some { midModel with stepTimer := timerA } :=
      (game_step_set_stepTimer { playModel with tick := playModel.tick + 1 } timerA oracleA).trans
        (by rw [game_step_play_concrete1]; rfl)
    have hg2 : GameModel.game_step { midModel with stepTimer := timerB } oracleA = some { finModel with stepTimer := timerB } :=
      (game_step_set_stepTimer midModel timerB oracleA).trans
        (by rw [game_step_play_concrete2]; rfl)
    have e2 : updateSpec playModel (1/11) oracleA = some { finModel with stepTimer := timerB } :=
      e0.trans (catchUpLoop_two_fires (1/((22:Nat):ℚ)) oracleA 61
        { playModel with tick := playModel.tick + 1, stepTimer := playModel.stepTimer + 1/11 }
        { midModel with stepTimer := timerA }
        { finModel with stepTimer := timerB }
        (by show (1:ℚ)/((22:Nat):ℚ) ≤ (0:ℚ) + 1/11; push_cast; norm_num)
        hg1
        (by show (1:ℚ)/((22:Nat):ℚ) ≤ (0:ℚ) + 1/11 - 1/((22:Nat):ℚ); push_cast; norm_num)
        hg2
        (by show ¬((1:ℚ)/((22:Nat):ℚ) ≤ (0:ℚ) + 1/11 - 1/((22:Nat):ℚ) - 1/((22:Nat):ℚ)); push_cast; norm_num))
    exact (congrArg (Option.map (fun m => m.player.head)) e2).trans rfl
  · show 2 * ((1:ℚ)/((22:Nat):ℚ)) ≤ (0:ℚ) + 1/11
    push_cast
    norm_num

/-- Case analysis of the cross-collision block on two post-step snakes
that are both still alive: equal heads kill both; else the player's head
on an AI body cell kills only the player; else the AI's head on a player
body cell kills only the AI; else neither dies. -/
theorem cross_collision_cases (p a : Snake) (hp : p.alive = true) (ha : a.alive = true) :
    (p.head = a.head →
      (GameModel.cross_collision p a).1.alive = false ∧
      (GameModel.cross_collision p a).2.alive = false) ∧
    (p.head ≠ a.head → p.head ∈ a.body →
      (GameModel.cross_collision p a).1.alive = false ∧
      (GameModel.cross_collision p a).2.alive = true) ∧
    (p.head ≠ a.head → p.head ∉ a.body → a.head ∈ p.body →
      (GameModel.cross_collision p a).1.alive = true ∧
      (GameModel.cross_collision p a).2.alive = false) ∧
    (p.head ≠ a.head → p.head ∉ a.body → a.head ∉ p.body →
      (GameModel.cross_collision p a).1.alive = true ∧
      (GameModel.cross_collision p a).2.alive = true) := by
  unfold GameModel.cross_collision
  rw [if_pos ⟨hp, ha⟩]
  refine ⟨?_, ?_, ?_, ?_⟩
  · intro hh
    rw [if_pos hh]
    exact ⟨rfl, rfl⟩
  · intro hh hm
    rw [if_neg hh, if_pos ⟨by simpa [Snake.occupies] using hm, fun hc => hh hc⟩]
    exact ⟨rfl, ha⟩
  · intro hh hm hm2
    rw [if_neg hh, if_neg (by simp [Snake.occupies, hm]),
      if_pos ⟨by simpa [Snake.occupies] using hm2, fun hc => hh hc.symm⟩]
    exact ⟨hp, rfl⟩
  · intro hh hm hm2
    rw [if_neg hh, if_neg (by simp [Snake.occupies, hm]),
      if_neg (by simp [Snake.occupies, hm2])]
    exact ⟨hp, ha⟩

/-- Food pickup never changes either snake's alive flag. -/
theorem food_pickup_alive (m : GameModel) (o : Oracle) (m' : GameModel)
    (h : m.food_pickup o = some m') :
    m'.player.alive = m.player.alive ∧ m'.ai.alive = m.ai.alive := by
  unfold GameModel.food_pickup at h
  split_ifs at h
  · rcases Option.map_eq_some'.mp h with ⟨f, _, rfl⟩
    exact ⟨rfl, rfl⟩
  · rcases Option.map_eq_some'.mp h with ⟨f, _, rfl⟩
    exact ⟨rfl, rfl⟩
  · cases h
    exact ⟨rfl, rfl⟩

/-- The game-over check never changes either snake's alive flag. -/
theorem check_game_over_alive (m : GameModel) (o : Oracle) :
    (m.check_game_over o).player.alive = m.player.alive ∧
      (m.check_game_over o).ai.alive = m.ai.alive := by
  unfold GameModel.check_game_over GameModel.burst
  split_ifs <;> exact ⟨rfl, rfl⟩


/-- C2: in every game step, the AI decision is computed on the pre-move
snapshot and fed to `requestDirection` before movement, the player steps
first and the AI second, and when both snakes survive their own steps the
cross-collision outcome follows exactly one of the three mutually
exclusive cases in priority order: equal heads kill both; else player
head on an AI body cell kills only the player; else AI head on a player
body cell kills only the AI; else both live. -/
theorem game_step_collision (m m' : GameModel) (o : Oracle) (cfg : DiffCfg)
    (p1 a1 : Snake)
    (hcfg : DIFFICULTIES m.difficulty = some cfg)
    (hp1 : p1 = (m.player.step).1)
    (ha1 : a1 = ((m.ai.request_direction
      (compute_direction m.ai m.food m.player cfg.mistake o.rand o.choiceIx)).step).1)
    (hres : m.game_step o = some m')
    (hpa : p1.alive = true) (haa : a1.alive = true) :
    (p1.head = a1.head → m'.player.alive = false ∧ m'.ai.alive = false) ∧
    (p1.head ≠ a1.head → p1.head ∈ a1.body →
      m'.player.alive = false ∧ m'.ai.alive = true) ∧
    (p1.head ≠ a1.head → p1.head ∉ a1.body → a1.head ∈ p1.body →
      m'.player.alive = true ∧ m'.ai.alive = false) ∧
    (p1.head ≠ a1.head → p1.head ∉ a1.body → a1.head ∉ p1.body →
      m'.player.alive = true ∧ m'.ai.alive = true) := by
  subst hp1 ha1
  unfold GameModel.game_step at hres
  rw [hcfg] at hres
  dsimp only at hres
  rcases Option.map_eq_some'.mp hres with ⟨mf, hmf, rfl⟩
  obtain ⟨hfp, hfa⟩ := food_pickup_alive _ o _ hmf
  dsimp only at hfp hfa
  obtain ⟨hcp, hca⟩ := check_game_over_alive mf o
  obtain ⟨c1, c2, c3, c4⟩ := cross_collision_cases _ _ hpa haa
  refine ⟨?_, ?_, ?_, ?_⟩
  · intro hh
    rw [hcp, hca, hfp, hfa]
    exact c1 hh
  · intro hh hm
    rw [hcp, hca, hfp, hfa]
    exact c2 hh hm
  · intro hh hm hm2
    rw [hcp, hca, hfp, hfa]
    exact c3 hh hm hm2
  · intro hh hm hm2
    rw [hcp, hca, hfp, hfa]
    exact c4 hh hm hm2


/-- Witness for `game_step_collision` at a concrete collision-free step. -/
theorem game_step_collision_witness :
    GameModel.game_step { playModel with tick := playModel.tick + 1 } oracleA = some midModel ∧
      midModel.player.alive = true ∧ midModel.ai.alive = true :=
  ⟨game_step_play_concrete1,
    (game_step_collision { playModel with tick := playModel.tick + 1 } midModel oracleA
      ⟨"INSANE", 22, 0⟩ midModel.player midModel.ai rfl (by decide) (by decide)
      game_step_play_concrete1 (by decide) (by decide)).2.2.2
      (by decide) (by decide) (by decide)⟩

theorem pathEnd_snoc (blocked : List Cell) (d : Direction) :
    ∀ (ds : List Direction) (s e : Cell),
      pathEnd blocked s (ds ++ [d]) = some e ↔
        ∃ b : Cell, pathEnd blocked s ds = some b ∧ d ∈ ALL_DIRS ∧
          e = (b.1 + d.x, b.2 + d.y) ∧ inBounds e = true ∧ e ∉ blocked := by
  intro ds
  induction ds with
  | nil =>
    intro s e
    simp only [List.nil_append, pathEnd]
    split_ifs with hg
    · constructor
      · intro h
        refine ⟨s, rfl, hg.1, ?_, ?_, ?_⟩
        · exact (Option.some_inj.mp h).symm
        · rw [← Option.some_inj.mp h]; exact hg.2.1
        · rw [← Option.some_inj.mp h]; exact hg.2.2
      · rintro ⟨b, hb, _, he, _, _⟩
        rw [he, ← Option.some_inj.mp hb]
    · constructor
      · intro h; cases h
      · rintro ⟨b, hb, hall, he, hib, hnb⟩
        refine absurd ⟨hall, ?_, ?_⟩ hg
        · rw [Option.some_inj.mp hb, ← he]; exact hib
        · rw [Option.some_inj.mp hb, ← he]; exact hnb
  | cons d0 ds ih =>
    intro s e
    simp only [List.cons_append, pathEnd]
    split_ifs with hg
    · exact ih _ e
    · constructor
      · intro h; cases h
      · rintro ⟨b, hb, _⟩; cases hb


/-- Once the queue is empty every visited cell's legal neighbors are
visited, so visited is closed under reachability. -/
theorem visited_closed_reachable (blocked : List Cell) (v : List Cell)
    (hcl : ∀ c ∈ v, ∀ d ∈ ALL_DIRS, inBounds (c.1 + d.x, c.2 + d.y) = true →
      (c.1 + d.x, c.2 + d.y) ∉ blocked → (c.1 + d.x, c.2 + d.y) ∈ v) :
    ∀ (ds : List Direction) (b e : Cell), b ∈ v →
      pathEnd blocked b ds = some e → e ∈ v := by
  intro ds
  induction ds with
  | nil =>
    intro b e hb he
    rw [pathEnd] at he
    rwa [← Option.some_inj.mp he]
  | cons d0 ds ih =>
    intro b e hb he
    rw [pathEnd] at he
    split_ifs at he with hg
    · exact ih _ e (hcl b hb d0 hg.1 hg.2.1 hg.2.2) he

theorem mem_gridF_iff (c : Cell) : c ∈ gridF ↔ inBounds c = true := by
  obtain ⟨x, y⟩ := c
  have hc : COLS = 60 := by decide
  have hr : ROWS = 40 := by decide
  simp only [gridF, Finset.mem_Icc, Prod.mk_le_mk, inBounds, hc, hr,
    Bool.and_eq_true, decide_eq_true_eq]
  omega

theorem card_gridF : gridF.card = 2400 := by
  rw [gridF, Finset.card_Icc_prod]
  rw [Int.card_Icc, Int.card_Icc]
  decide


/-- One unfolding of the `while` loop of `_bfs` on a nonempty queue. -/
theorem bfsAux_cons (blocked : List Cell) (target : Cell) (fuel : Nat)
    (c : Cell) (fd : Option Direction)
    (rest : List (Cell × Option Direction)) (visited : List Cell) :
    bfsAux blocked target (fuel + 1) ((c, fd) :: rest) visited =
      if c = target ∧ fd.isSome then fd
      else
        bfsAux blocked target fuel
          (List.foldl (bfsStep blocked c fd) (rest, visited) ALL_DIRS).1
          (List.foldl (bfsStep blocked c fd) (rest, visited) ALL_DIRS).2 := rfl

/-- Effect of folding the expansion step over a direction list: some new
entries are appended to the queue and simultaneously marked visited; each
is a fresh legal neighbor of `c` carrying `first_dir or d`; every legal
neighbor of `c` in a folded direction ends up visited. -/
theorem bfs_expand (blocked : List Cell) (c : Cell) (fd : Option Direction) :
    ∀ (dirs : List Direction) (q : List (Cell × Option Direction)) (v : List Cell),
      ∃ new : List (Cell × Option Direction),
        (List.foldl (bfsStep blocked c fd) (q, v) dirs).1 = q ++ new ∧
        (∀ x, x ∈ (List.foldl (bfsStep blocked c fd) (q, v) dirs).2 ↔
          x ∈ new.map Prod.fst ∨ x ∈ v) ∧
        (∀ e ∈ new, ∃ d ∈ dirs, e.1 = (c.1 + d.x, c.2 + d.y) ∧ e.2 = some (fd.getD d)) ∧
        (∀ e ∈ new, inBounds e.1 = true ∧ e.1 ∉ blocked ∧ e.1 ∉ v) ∧
        (∀ d ∈ dirs, inBounds (c.1 + d.x, c.2 + d.y) = true →
          (c.1 + d.x, c.2 + d.y) ∉ blocked →
          (c.1 + d.x, c.2 + d.y) ∈ (List.foldl (bfsStep blocked c fd) (q, v) dirs).2) ∧
        (new.map Prod.fst).Nodup := by
  intro dirs
  induction dirs with
  | nil =>
    intro q v
    exact ⟨[], by simp, by simp, by simp, by simp, by simp, by simp⟩
  | cons d dirs ih =>
    intro q v
    rw [List.foldl_cons]
    by_cases hg : inBounds (c.1 + d.x, c.2 + d.y) = true ∧
        (c.1 + d.x, c.2 + d.y) ∉ blocked ∧ (c.1 + d.x, c.2 + d.y) ∉ v
    · have hstep : bfsStep blocked c fd (q, v) d =
          (q ++ [((c.1 + d.x, c.2 + d.y), some (fd.getD d))],
            (c.1 + d.x, c.2 + d.y) :: v) := by
        unfold bfsStep
        rw [if_pos hg]
      rw [hstep]
      obtain ⟨new', h1, h2, h3, h4, h5, h6⟩ :=
        ih (q ++ [((c.1 + d.x, c.2 + d.y), some (fd.getD d))])
          ((c.1 + d.x, c.2 + d.y) :: v)
      refine ⟨((c.1 + d.x, c.2 + d.y), some (fd.getD d)) :: new', ?_, ?_, ?_, ?_, ?_, ?_⟩
      · rw [h1, List.append_assoc]
        rfl
      · intro x
        rw [h2 x]
        simp only [List.map_cons, List.mem_cons]
        tauto
      · intro e he
        rcases List.mem_cons.mp he with rfl | he'
        · exact ⟨d, List.mem_cons_self _ _, rfl, rfl⟩
        · obtain ⟨d', hd', he1, he2⟩ := h3 e he'
          exact ⟨d', List.mem_cons_of_mem _ hd', he1, he2⟩
      · intro e he
        rcases List.mem_cons.mp he with rfl | he'
        · exact ⟨hg.1, hg.2.1, hg.2.2⟩
        · obtain ⟨hb1, hb2, hb3⟩ := h4 e he'
          refine ⟨hb1, hb2, fun hv => hb3 (List.mem_cons_of_mem _ hv)⟩
      · intro d0 hd0 hib hnb
        rcases List.mem_cons.mp hd0 with rfl | hd0'
        · rw [h2]
          right
          exact List.mem_cons_self _ _
        · exact h5 d0 hd0' hib hnb
      · simp only [List.map_cons]
        refine List.nodup_cons.mpr ⟨?_, h6⟩
        intro hmem
        rcases List.mem_map.mp hmem with ⟨e, he, heq⟩
        exact (h4 e he).2.2 (heq ▸ List.mem_cons_self _ _)
    · have hstep : bfsStep blocked c fd (q, v) d = (q, v) := by
        unfold bfsStep
        rw [if_neg hg]
      rw [hstep]
      obtain ⟨new', h1, h2, h3, h4, h5, h6⟩ := ih q v
      refine ⟨new', h1, h2, ?_, h4, ?_, h6⟩
      · intro e he
        obtain ⟨d', hd', he1, he2⟩ := h3 e he
        exact ⟨d', List.mem_cons_of_mem _ hd', he1, he2⟩
      · intro d0 hd0 hib hnb
        rcases List.mem_cons.mp hd0 with rfl | hd0'
        · have hv : (c.1 + d0.x, c.2 + d0.y) ∈ v := by
            by_contra hnv
            exact hg ⟨hib, hnb, hnv⟩
          rw [h2]
          right
          exact hv
        · exact h5 d0 hd0' hib hnb


/-- When level `n` is exhausted the whole level-`n + 1` block becomes the
current level: every cell within distance `n + 1` is then visited. -/
theorem BfsInv.shift {blocked : List Cell} {start t : Cell}
    {qB : List (Cell × Option Direction)} {visited : List Cell} {n : Nat}
    (inv : BfsInv blocked start t [] qB visited n) :
    BfsInv blocked start t qB [] visited (n + 1) where
  start_vis := inv.start_vis
  entA := inv.entB
  entB := by intro e he; cases he
  tightA := inv.tightB
  tightB := by intro e he; cases he
  complete := by
    intro c k hr hk
    rcases Nat.lt_or_ge k (n + 1) with hlt | hge
    · exact inv.complete c k hr (by omega)
    · have hk1 : k = n + 1 := by omega
      subst hk1
      obtain ⟨ds, hds, hlen⟩ := hr
      have hne : ds ≠ [] := by
        intro h; rw [h] at hlen; simp at hlen
      have hsplit : ds.dropLast ++ [ds.getLast hne] = ds :=
        List.dropLast_append_getLast hne
      rw [← hsplit] at hds
      rcases (pathEnd_snoc blocked _ _ _ _).mp hds with ⟨b, hb, hdall, hce, hib, hnb⟩
      have hblen : ds.dropLast.length = n := by
        have := List.length_dropLast ds
        omega
      have hbvis : b ∈ visited := inv.complete b n ⟨ds.dropLast, hb, hblen⟩ (le_refl n)
      rcases inv.closure b hbvis with ⟨fd, hfd | hfd⟩ | hcl2
      · cases hfd
      · exact absurd (inv.tightB (b, fd) hfd n ⟨ds.dropLast, hb, hblen⟩) (by omega)
      · rw [hce]
        exact hcl2 _ hdall (hce ▸ hib) (hce ▸ hnb)
  closure := by
    intro c hc
    rcases inv.closure c hc with ⟨fd, hfd | hfd⟩ | hcl2
    · cases hfd
    · exact Or.inl ⟨fd, Or.inl hfd⟩
    · exact Or.inr hcl2
  target_pending := by
    intro hvt
    rcases inv.target_pending hvt with ⟨fd, hfd | hfd⟩ | hs
    · cases hfd
    · exact Or.inl ⟨fd, Or.inl hfd⟩
    · exact Or.inr hs
  queue_vis := by
    intro e he
    rcases he with he | he
    · exact inv.queue_vis e (Or.inr he)
    · cases he


/-- Popping the head `(c, fd)` of the level-`n` block and enqueueing its
fresh legal neighbors (at level `n + 1`, marked visited) preserves the
invariant. -/
theorem BfsInv.extend {blocked : List Cell} {start t : Cell}
    {c : Cell} {fd : Option Direction}
    {qA' qB : List (Cell × Option Direction)} {visited : List Cell} {n : Nat}
    (inv : BfsInv blocked start t ((c, fd) :: qA') qB visited n)
    (hnoret : ¬(c = t ∧ fd.isSome))
    (new : List (Cell × Option Direction)) (v' : List Cell)
    (h2 : ∀ x, x ∈ v' ↔ x ∈ new.map Prod.fst ∨ x ∈ visited)
    (h3 : ∀ e ∈ new, ∃ d ∈ ALL_DIRS, e.1 = (c.1 + d.x, c.2 + d.y) ∧ e.2 = some (fd.getD d))
    (h4 : ∀ e ∈ new, inBounds e.1 = true ∧ e.1 ∉ blocked ∧ e.1 ∉ visited)
    (h5 : ∀ d ∈ ALL_DIRS, inBounds (c.1 + d.x, c.2 + d.y) = true →
      (c.1 + d.x, c.2 + d.y) ∉ blocked → (c.1 + d.x, c.2 + d.y) ∈ v') :
    BfsInv blocked start t qA' (qB ++ new) v' n where
  start_vis := (h2 start).mpr (Or.inr inv.start_vis)
  entA := fun e he => inv.entA e (List.mem_cons_of_mem _ he)
  entB := by
    intro e he
    rcases List.mem_append.mp he with he | he
    · exact inv.entB e he
    · obtain ⟨d, hdall, he1, he2⟩ := h3 e he
      obtain ⟨hib, hnb, _⟩ := h4 e he
      rcases inv.entA (c, fd) (List.mem_cons_self _ _) with
        ⟨hnone, hcs, hn0⟩ | ⟨d0, ds0, hsome0, hpath, hlen⟩
      · -- head is the start entry: level 0, new entry carries `d` itself
        right
        have hcs' : c = start := hcs
        have hfdn : fd = none := hnone
        have hib' : inBounds (start.1 + d.x, start.2 + d.y) = true := by
          rw [← hcs']
          rw [he1] at hib
          exact hib
        have hnb' : (start.1 + d.x, start.2 + d.y) ∉ blocked := by
          rw [← hcs']
          rw [he1] at hnb
          exact hnb
        refine ⟨d, [], ?_, ?_, ?_⟩
        · rw [he2, hfdn]
          rfl
        · rw [he1, hcs']
          exact (pathEnd_snoc blocked d [] start _).mpr
            ⟨start, rfl, hdall, rfl, hib', hnb'⟩
        · simp only [List.length_nil]
          omega
      · -- head carries `some d0`: extend its path by `d`
        right
        refine ⟨d0, ds0 ++ [d], ?_, ?_, ?_⟩
        · rw [he2, show fd = some d0 from hsome0]
          rfl
        · rw [he1]
          have : (d0 :: ds0) ++ [d] = d0 :: (ds0 ++ [d]) := rfl
          rw [← this]
          refine (pathEnd_snoc blocked d (d0 :: ds0) start _).mpr
            ⟨c, hpath, hdall, rfl, ?_, ?_⟩
          · rw [← he1]; exact hib
          · rw [← he1]; exact hnb
        · simp only [List.length_append, List.length_cons, List.length_nil]
          omega
  tightA := fun e he => inv.tightA e (List.mem_cons_of_mem _ he)
  tightB := by
    intro e he k hr
    rcases List.mem_append.mp he with he | he
    · exact inv.tightB e he k hr
    · by_contra hlt
      have hk : k ≤ n := by omega
      exact (h4 e he).2.2 (inv.complete e.1 k hr hk)
  complete := fun c' k hr hk => (h2 c').mpr (Or.inr (inv.complete c' k hr hk))
  closure := by
    intro c' hc'
    rcases (h2 c').mp hc' with hnew | hold
    · rcases List.mem_map.mp hnew with ⟨e, he, heq⟩
      exact Or.inl ⟨e.2, Or.inr (List.mem_append.mpr (Or.inr (heq ▸ he)))⟩
    · rcases inv.closure c' hold with ⟨fd', hfd | hfd⟩ | hcl2
      · rcases List.mem_cons.mp hfd with heq | hfd'
        · -- c' is the popped head: all its legal neighbors are now visited
          right
          intro d hdall hib hnb
          have hc'c : c' = c := congrArg Prod.fst heq
          rw [hc'c]
          exact h5 d hdall (by rw [← hc'c]; exact hib) (by rw [← hc'c]; exact hnb)
        · exact Or.inl ⟨fd', Or.inl hfd'⟩
      · exact Or.inl ⟨fd', Or.inr (List.mem_append.mpr (Or.inl hfd))⟩
      · exact Or.inr fun d hdall hib hnb => (h2 _).mpr (Or.inr (hcl2 d hdall hib hnb))
  target_pending := by
    intro hvt
    rcases (h2 t).mp hvt with hnew | hold
    · rcases List.mem_map.mp hnew with ⟨e, he, heq⟩
      exact Or.inl ⟨e.2, Or.inr (List.mem_append.mpr (Or.inr (heq ▸ he)))⟩
    · rcases inv.target_pending hold with ⟨fd', hfd | hfd⟩ | hs
      · rcases List.mem_cons.mp hfd with heq | hfd'
        · -- the head would have returned unless it is the start entry
          have hct : c = t := (congrArg Prod.fst heq).symm
          rcases inv.entA (c, fd) (List.mem_cons_self _ _) with
            ⟨_, hcs, _⟩ | ⟨d0, ds0, hsome0, _, _⟩
          · exact Or.inr (hct ▸ hcs)
          · exact absurd ⟨hct, by rw [show fd = some d0 from hsome0]; rfl⟩ hnoret
        · exact Or.inl ⟨fd', Or.inl hfd'⟩
      · exact Or.inl ⟨fd', Or.inr (List.mem_append.mpr (Or.inl hfd))⟩
      · exact Or.inr hs
  queue_vis := by
    intro e he
    rcases he with he | he
    · exact (h2 _).mpr (Or.inr (inv.queue_vis e (Or.inl (List.mem_cons_of_mem _ he))))
    · rcases List.mem_append.mp he with he | he
      · exact (h2 _).mpr (Or.inr (inv.queue_vis e (Or.inr he)))
      · exact (h2 _).mpr (Or.inl (List.mem_map.mpr ⟨e, he, rfl⟩))


set_option maxRecDepth 4000 in
/-- Marking fresh in-bounds cells visited shrinks the free-cell count by
exactly their number. -/
theorem free_card_after (v v' : List Cell) (newCells : List Cell)
    (h2 : ∀ x, x ∈ v' ↔ x ∈ newCells ∨ x ∈ v)
    (h4 : ∀ x ∈ newCells, inBounds x = true ∧ x ∉ v)
    (h6 : newCells.Nodup) :
    (gridF \ v'.toFinset).card + newCells.length = (gridF \ v.toFinset).card := by
  have hsub : newCells.toFinset ⊆ gridF \ v.toFinset := by
    intro x hx
    rw [List.mem_toFinset] at hx
    obtain ⟨hib, hnv⟩ := h4 x hx
    rw [Finset.mem_sdiff, List.mem_toFinset, mem_gridF_iff]
    exact ⟨hib, hnv⟩
  have hsd : gridF \ v'.toFinset = (gridF \ v.toFinset) \ newCells.toFinset := by
    ext x
    simp only [Finset.mem_sdiff, List.mem_toFinset, h2 x]
    tauto
  rw [hsd, Finset.card_sdiff hsub, List.toFinset_card_of_nodup h6]
  have := Finset.card_le_card hsub
  rw [List.toFinset_card_of_nodup h6] at this
  omega


/-- Processing one queue head preserves the loop's correctness: either it
is the target (and the recorded first direction begins a shortest path),
or expansion re-establishes the invariant for the recursive call. -/
theorem bfsAux_process (blocked : List Cell) (start t : Cell)
    (fuel : Nat)
    (IH : ∀ (qA qB : List (Cell × Option Direction)) (visited : List Cell) (n : Nat),
      BfsInv blocked start t qA qB visited n →
      (qA ++ qB).length + (gridF \ visited.toFinset).card < fuel →
      ∃ d ds, bfsAux blocked t fuel (qA ++ qB) visited = some d ∧
        pathEnd blocked start (d :: ds) = some t ∧
        ∀ ds', pathEnd blocked start ds' = some t → ds.length + 1 ≤ ds'.length)
    (c : Cell) (fd : Option Direction)
    (qA' qB : List (Cell × Option Direction)) (visited : List Cell) (n : Nat)
    (inv : BfsInv blocked start t ((c, fd) :: qA') qB visited n)
    (hm : (((c, fd) :: qA') ++ qB).length + (gridF \ visited.toFinset).card < fuel + 1) :
    ∃ d ds, bfsAux blocked t (fuel + 1) (((c, fd) :: qA') ++ qB) visited = some d ∧
      pathEnd blocked start (d :: ds) = some t ∧
      ∀ ds', pathEnd blocked start ds' = some t → ds.length + 1 ≤ ds'.length := by
  rw [show ((c, fd) :: qA') ++ qB = (c, fd) :: (qA' ++ qB) from rfl, bfsAux_cons]
  by_cases hret : c = t ∧ fd.isSome = true
  · obtain ⟨hct, hsome⟩ := hret
    rcases hfd : fd with _ | d
    · rw [hfd] at hsome
      cases hsome
    · subst hfd
      rcases inv.entA (c, some d) (List.mem_cons_self _ _) with
        ⟨hnone, _, _⟩ | ⟨d0, ds0, hsome0, hpath, hlen⟩
      · cases hnone
      · have hd0 : d0 = d := by
          have h' : some d = some d0 := hsome0
          exact (Option.some_inj.mp h').symm
        subst hd0
        refine ⟨d0, ds0, ?_, ?_, ?_⟩
        · rw [if_pos ⟨hct, rfl⟩]
        · exact hct ▸ hpath
        · intro ds' hds'
          have hr : reaches blocked start c ds'.length :=
            ⟨ds', by rw [hct]; exact hds', rfl⟩
          have := inv.tightA (c, some d0) (List.mem_cons_self _ _) ds'.length hr
          omega
  · rw [if_neg hret]
    obtain ⟨new, h1, h2, h3, h4, h5, h6⟩ :=
      bfs_expand blocked c fd ALL_DIRS (qA' ++ qB) visited
    have inv' : BfsInv blocked start t qA' (qB ++ new)
        (List.foldl (bfsStep blocked c fd) (qA' ++ qB, visited) ALL_DIRS).2 n :=
      inv.extend hret new _ h2 h3 h4 h5
    have hfree := free_card_after visited
      (List.foldl (bfsStep blocked c fd) (qA' ++ qB, visited) ALL_DIRS).2
      (new.map Prod.fst) h2
      (by
        intro x hx
        rcases List.mem_map.mp hx with ⟨e, he, rfl⟩
        exact ⟨(h4 e he).1, (h4 e he).2.2⟩)
      h6
    have hmeas : (qA' ++ (qB ++ new)).length +
        (gridF \ (List.foldl (bfsStep blocked c fd) (qA' ++ qB, visited) ALL_DIRS).2.toFinset).card < fuel := by
      simp only [List.length_append, List.length_cons, List.length_map] at hfree hm ⊢
      omega
    have hres := IH qA' (qB ++ new) _ n inv' hmeas
    rw [h1, List.append_assoc]
    exact hres


/-- Main BFS loop correctness: from any state satisfying the invariant
(with enough fuel), when the target is reachable and distinct from the
start, the loop returns a direction that begins a shortest legal path to
the target. -/
theorem bfsAux_correct (blocked : List Cell) (start t : Cell) (ht : t ≠ start)
    (hreach : ∃ ds, pathEnd blocked start ds = some t) :
    ∀ (fuel : Nat) (qA qB : List (Cell × Option Direction)) (visited : List Cell) (n : Nat),
      BfsInv blocked start t qA qB visited n →
      (qA ++ qB).length + (gridF \ visited.toFinset).card < fuel →
      ∃ d ds, bfsAux blocked t fuel (qA ++ qB) visited = some d ∧
        pathEnd blocked start (d :: ds) = some t ∧
        ∀ ds', pathEnd blocked start ds' = some t → ds.length + 1 ≤ ds'.length := by
  intro fuel
  induction fuel with
  | zero =>
    intro qA qB visited n inv hm
    exact absurd hm (Nat.not_lt_zero _)
  | succ fuel ih =>
    intro qA qB visited n inv hm
    rcases qA with _ | ⟨⟨c, fd⟩, qA'⟩
    · rcases qB with _ | ⟨⟨c, fd⟩, qB'⟩
      · -- queue empty although the target is reachable: impossible
        exfalso
        obtain ⟨ds, hds⟩ := hreach
        have hcl : ∀ c ∈ visited, ∀ d ∈ ALL_DIRS,
            inBounds (c.1 + d.x, c.2 + d.y) = true →
            (c.1 + d.x, c.2 + d.y) ∉ blocked → (c.1 + d.x, c.2 + d.y) ∈ visited := by
          intro c hc d hd hib hnb
          rcases inv.closure c hc with ⟨fd, hfd | hfd⟩ | hcl2
          · cases hfd
          · cases hfd
          · exact hcl2 d hd hib hnb
        have hvt : t ∈ visited :=
          visited_closed_reachable blocked visited hcl ds start t inv.start_vis hds
        rcases inv.target_pending hvt with ⟨fd, hfd | hfd⟩ | hs
        · cases hfd
        · cases hfd
        · exact ht hs
      · -- level n exhausted: shift to level n + 1 and process the head
        have inv' : BfsInv blocked start t ((c, fd) :: qB') [] visited (n + 1) :=
          inv.shift
        have hm' : (((c, fd) :: qB') ++ []).length +
            (gridF \ visited.toFinset).card < fuel + 1 := by
          simp only [List.append_nil, List.nil_append, List.length_append] at hm ⊢
          exact hm
        have hp := bfsAux_process blocked start t fuel ih c fd qB' [] visited (n + 1)
          inv' hm'
        rw [List.append_nil] at hp
        rw [List.nil_append]
        exact hp
    · exact bfsAux_process blocked start t fuel ih c fd qA' qB visited n inv hm


/-- C4: when a path to the target exists (and the target is not the AI's
own head cell), `_bfs` — which blocks every cell of the snake's body,
expands neighbors in the fixed order RIGHT, LEFT, DOWN, UP, and records
each queued cell's first direction from the head — returns a direction
that begins a shortest legal path from the head to the target. -/
theorem bfs_shortest (s : Snake) (t : Cell) (ht : t ≠ s.head)
    (hreach : ∃ ds, pathEnd s.body s.head ds = some t) :
    ∃ d ds, bfs s t = some d ∧
      pathEnd s.body s.head (d :: ds) = some t ∧
      ∀ ds', pathEnd s.body s.head ds' = some t → ds.length + 1 ≤ ds'.length := by
  have inv0 : BfsInv s.body s.head t [(s.head, none)] [] [s.head] 0 :=
    { start_vis := List.mem_singleton.mpr rfl
      entA := by
        intro e he
        rw [List.mem_singleton.mp he]
        exact Or.inl ⟨rfl, rfl, rfl⟩
      entB := by intro e he; cases he
      tightA := fun e _ k _ => Nat.zero_le k
      tightB := by intro e he; cases he
      complete := by
        intro c k hr hk
        obtain ⟨ds, hds, hlen⟩ := hr
        have hnil : ds = [] := List.length_eq_zero.mp (by omega)
        subst hnil
        rw [pathEnd] at hds
        rw [← Option.some_inj.mp hds]
        exact List.mem_singleton.mpr rfl
      closure := by
        intro c hc
        left
        refine ⟨none, Or.inl ?_⟩
        rw [List.mem_singleton.mp hc]
        exact List.mem_singleton.mpr rfl
      target_pending := fun hvt => Or.inr (List.mem_singleton.mp hvt)
      queue_vis := by
        intro e he
        rcases he with he | he
        · rw [List.mem_singleton.mp he]
          exact List.mem_singleton.mpr rfl
        · cases he }
  have hm0 : (([(s.head, (none : Option Direction))] :
        List (Cell × Option Direction)) ++ []).length +
      (gridF \ ([s.head] : List Cell).toFinset).card < bfsFuel := by
    have h1 : (gridF \ ([s.head] : List Cell).toFinset).card ≤ gridF.card :=
      Finset.card_le_card Finset.sdiff_subset
    rw [card_gridF] at h1
    have h2 : bfsFuel = 2402 := by decide
    simp only [List.append_nil, List.length_cons, List.length_nil]
    omega
  have hmain := bfsAux_correct s.body s.head t ht hreach bfsFuel
    [(s.head, none)] [] [s.head] 0 inv0 hm0
  rw [List.append_nil] at hmain
  exact hmain


theorem bfs_shortest_witness :
    (44, 20) ≠ (Snake.init 45 20 Direction.LEFT AI_COL AI_DIM).head ∧
      pathEnd (Snake.init 45 20 Direction.LEFT AI_COL AI_DIM).body
        (Snake.init 45 20 Direction.LEFT AI_COL AI_DIM).head
        [Direction.LEFT] = some (44, 20) ∧
      (∃ d ds, bfs (Snake.init 45 20 Direction.LEFT AI_COL AI_DIM) (44, 20) = some d ∧
        pathEnd (Snake.init 45 20 Direction.LEFT AI_COL AI_DIM).body
          (Snake.init 45 20 Direction.LEFT AI_COL AI_DIM).head (d :: ds) = some (44, 20) ∧
        ∀ ds', pathEnd (Snake.init 45 20 Direction.LEFT AI_COL AI_DIM).body
          (Snake.init 45 20 Direction.LEFT AI_COL AI_DIM).head ds' = some (44, 20) →
          ds.length + 1 ≤ ds'.length) :=
  ⟨by decide, by decide,
    bfs_shortest _ _ (by decide) ⟨[Direction.LEFT], by decide⟩⟩

end SnakeGame
